import Mathlib

/-!
Shallow embedding of the strong-orientation engine in
`src/tanjung-priok-strong-orientation.py`.

Modelling conventions, stated once:
* Node identifiers (OSM integer ids) are modelled as `Nat`.
* A networkx `MultiDiGraph` is modelled as a node list plus an arc list; the
  repository's spec explicitly scopes out parallel-edge and self-loop
  semantics, so arcs are conceptually keyed by their `(src, dst)` pair.
* Arc attributes `oneway` and `flexible` are record fields; a missing
  attribute (Python `data.get(..., False)`) is the field being `false`.
* Library calls (`networkx`) are embedded by their documented behaviour:
  `is_strongly_connected` raises `NetworkXPointlessConcept` on the null
  graph, which is modelled as `Except.error ()`; `connected_components`
  yields components in first-seen node order; `strongly_connected_components`
  yields the SCC partition (its enumeration order is not contractually
  specified, so tie-breaking between equal-size components is modelled
  canonically by first node order, and theorems are stated so as not to
  depend on the tie-break).
* CPython `set` / `frozenset` iteration over integer keys is a deterministic
  function of the stored elements; the concrete (hash-table) order is
  modelled canonically by first-occurrence order.
-/

deriving instance DecidableEq for Except

namespace StrongOrientation

abbrev Node := Nat

/-- An ordered pair of node ids, as used for directed arcs. -/
abbrev NPair := Node × Node

/-- A directed arc with its networkx attribute dictionary restricted to the
two attributes the engine reads: `oneway` and `flexible`. -/
structure Arc where
  src : Node
  dst : Node
  oneway : Bool
  flexible : Bool
deriving DecidableEq, Repr

/-- A (multi)digraph value: node list plus arc list, in insertion order. -/
structure Graph where
  nodes : List Node
  arcs : List Arc
deriving DecidableEq, Repr

/-- The `(from, to)` pairs of the graph's arcs (what `G.edges()` yields). -/
def Graph.pairs (G : Graph) : List NPair := G.arcs.map fun a => (a.src, a.dst)

/-- Every arc's endpoints are members of the node set (the per-stage graph
invariant stated in the data model). -/
def Closed (G : Graph) : Prop :=
  ∀ a ∈ G.arcs, a.src ∈ G.nodes ∧ a.dst ∈ G.nodes

instance (G : Graph) : Decidable (Closed G) := by
  unfold Closed
  infer_instance

/-! ## Directed reachability

`Reach A u v` is the proposition "v is reachable from u via the arcs in A";
`reachB` is the executable test, computed by saturating the set of nodes
reachable from `u` (the role played by networkx's SCC computation). -/

/-- Single-arc step of the arc list `A`. -/
def arcStep (A : List NPair) (x y : Node) : Prop := (x, y) ∈ A

/-- Reachability: reflexive-transitive closure of the arc-step relation. -/
def Reach (A : List NPair) : Node → Node → Prop :=
  Relation.ReflTransGen (arcStep A)

/-- One round of saturation: add every destination of an arc whose source is
already in `S`. -/
def expand (A : List NPair) (S : Finset Node) : Finset Node :=
  S ∪ ((A.filter fun a => decide (a.1 ∈ S)).map Prod.snd).toFinset

/-- Enough saturation rounds to reach a fixed point: one more than the number
of distinct arc destinations. -/
def reachFuel (A : List NPair) : Nat := ((A.map Prod.snd).toFinset).card + 1

/-- The set of nodes reachable from `u` in at most `n` saturation rounds. -/
def reachSet (A : List NPair) (u : Node) (n : Nat) : Finset Node :=
  (expand A)^[n] {u}

/-- Executable reachability test. -/
def reachB (A : List NPair) (u v : Node) : Bool :=
  decide (v ∈ reachSet A u (reachFuel A))

def symmetrize (A : List NPair) : List NPair := A ++ A.map fun p => (p.2, p.1)

/-- One undirected step: an arc between `x` and `y` in either direction. -/
def uStep (A : List NPair) (x y : Node) : Prop := (x, y) ∈ A ∨ (y, x) ∈ A

/-- Undirected reachability ("same connected component of `nx.Graph(G)`"). -/
def UReach (A : List NPair) : Node → Node → Prop :=
  Relation.ReflTransGen (uStep A)

/-- Executable undirected reachability test. -/
def uReachB (A : List NPair) (u v : Node) : Bool := reachB (symmetrize A) u v

/-! ## The connectivity oracle (`networkx` entry points) -/

/-- The node set of a networkx graph built by `add_nodes_from(V)` followed by
`add_edges_from(A)`: the listed nodes together with all arc endpoints. -/
def nxNodeSet (V : List Node) (A : List NPair) : Finset Node :=
  V.toFinset ∪ (A.map Prod.fst).toFinset ∪ (A.map Prod.snd).toFinset

/-- The boolean "every node reaches every node" (what
`nx.is_strongly_connected` computes on a non-null graph). -/
def stronglyConnB (V : List Node) (A : List NPair) : Bool :=
  decide (∀ v ∈ nxNodeSet V A, ∀ w ∈ nxNodeSet V A, reachB A v w = true)

/-- `nx.is_strongly_connected` on the graph with nodes `V` and arcs `A`:
raises `NetworkXPointlessConcept` (modelled as `Except.error ()`) on the null
graph, otherwise returns whether the graph is strongly connected. -/
def nx_is_strongly_connected (V : List Node) (A : List NPair) :
    Except Unit Bool :=
  if nxNodeSet V A = ∅ then Except.error () else Except.ok (stronglyConnB V A)

/-! ## SCCs, components, and `get_largest_scc` -/

/-- The strongly connected component of `u`: the members of `V` mutually
reachable with `u` over the arcs `A`. -/
def sccOf (A : List NPair) (V : List Node) (u : Node) : List Node :=
  V.filter fun v => reachB A u v && reachB A v u

/-- Python's `max(…, key=len)`: the first list of maximal length (`[]` on an
empty input, where Python would raise `ValueError` — the pipeline never calls
it on an empty collection). -/
def maxByLen : List (List Node) → List Node
  | [] => []
  | c :: rest =>
    let m := maxByLen rest
    if m.length > c.length then m else c

/-- `G.subgraph(S).copy()`: the induced subgraph on the node subset `S`,
keeping node order and arc attributes. -/
def inducedSubgraph (G : Graph) (S : List Node) : Graph :=
  ⟨G.nodes.filter fun n => decide (n ∈ S),
   G.arcs.filter fun a => decide (a.src ∈ S) && decide (a.dst ∈ S)⟩

/-- The SCC picked by `max(nx.strongly_connected_components(G), key=len)`
(ties broken canonically by first node order, see the header note). -/
def largestSccList (G : Graph) : List Node :=
  maxByLen (G.nodes.map fun u => sccOf G.pairs G.nodes u)

/-- `get_largest_scc` (lines 6–13): empty graph for an empty input, otherwise
the induced subgraph on the largest strongly connected component. -/
def get_largest_scc (G : Graph) : Graph :=
  if G.nodes = [] then ⟨[], []⟩ else inducedSubgraph G (largestSccList G)

/-! ## Stage 0: marking flexible edges (lines 48–50) -/

/-- `if not data.get("oneway", False): data['flexible'] = True` applied to
every arc of the working copy. -/
def markFlexible (G : Graph) : Graph :=
  ⟨G.nodes, G.arcs.map fun a => if a.oneway then a else { a with flexible := true }⟩

/-! ## Stage 1: bridge filter (lines 52–65) -/

/-- Whether two ordered pairs name the same unordered edge. -/
def samePairB (a e : NPair) : Bool := a == e || a == (e.2, e.1)

/-- `{u,v}` is a bridge of the collapsed undirected topology: after deleting
every arc between `u` and `v`, `u` no longer reaches `v` undirectedly.
(`nx.bridges` reports exactly the edges whose removal increases the number
of connected components.) -/
def isBridgeB (A : List NPair) (e : NPair) : Bool :=
  !(uReachB (A.filter fun a => !(samePairB a e)) e.1 e.2)

/-- The list `bridges = list(nx.bridges(G_undirected))` (up to each bridge
being listed once per arc naming it; only emptiness and membership are used). -/
def bridgesOf (G : Graph) : List NPair := G.pairs.filter (isBridgeB G.pairs)

/-- The loop `for u, v in bridges: remove_edge(u, v); remove_edge(v, u)`:
keep exactly the arcs whose unordered pair is not a bridge. -/
def removeBridgeArcs (G : Graph) : Graph :=
  ⟨G.nodes, G.arcs.filter fun a => !(isBridgeB G.pairs (a.src, a.dst))⟩

/-- The undirected connected component of `u`. -/
def uComponentOf (G : Graph) (u : Node) : List Node :=
  G.nodes.filter fun v => uReachB G.pairs u v

/-- `max(nx.connected_components(nx.Graph(G)), key=len)` — components arise
in first-seen node order, the first maximal one wins. -/
def largestUComponent (G : Graph) : List Node :=
  maxByLen (G.nodes.map (uComponentOf G))

/-- STEP 1 of `create_custom_orientation`: if any bridge exists, delete all
bridge arcs and keep the induced subgraph on the largest remaining connected
component; otherwise leave the graph untouched. -/
def bridgeStage (G : Graph) : Graph :=
  if bridgesOf G = [] then G
  else
    let G2 := removeBridgeArcs G
    inducedSubgraph G2 (largestUComponent G2)

/-! ## Stage 2: one-way cut nodes (lines 15–31 and 67–74) -/

/-- `n` has an inbound `oneway` arc. -/
def hasFixedIn (G : Graph) (n : Node) : Bool :=
  G.arcs.any fun a => a.dst == n && a.oneway

/-- `n` has an outbound `oneway` arc. -/
def hasFixedOut (G : Graph) (n : Node) : Bool :=
  G.arcs.any fun a => a.src == n && a.oneway

/-- Some successor `m` of `n` has both arcs `n→m` and `m→n` present. -/
def hasTwoWayNeighbor (G : Graph) (n : Node) : Bool :=
  G.arcs.any fun a => a.src == n && decide ((a.dst, n) ∈ G.pairs)

/-- The classification test of `detection_oneway_cut`. -/
def isOneWayCut (G : Graph) (n : Node) : Bool :=
  (hasFixedIn G n && !hasFixedOut G n && !hasTwoWayNeighbor G n) ||
  (hasFixedOut G n && !hasFixedIn G n && !hasTwoWayNeighbor G n)

/-- `detection_oneway_cut` (lines 15–31), reduced to the returned node ids
(the `direction` tag is only printed). -/
def detection_oneway_cut (G : Graph) : List Node :=
  G.nodes.filter (isOneWayCut G)

/-- `G.remove_nodes_from(S)`: drop the listed nodes and all incident arcs. -/
def removeNodes (G : Graph) (S : List Node) : Graph :=
  ⟨G.nodes.filter fun n => !(S.contains n),
   G.arcs.filter fun a => !(S.contains a.src) && !(S.contains a.dst)⟩

/-- STEP 2 of `create_custom_orientation`: if any one-way cut node was
detected, remove them all and extract the largest SCC; otherwise leave the
graph untouched. -/
def cutStage (G : Graph) : Graph :=
  if detection_oneway_cut G = [] then G
  else get_largest_scc (removeNodes G (detection_oneway_cut G))

/-! ## Stage 3: the orientation solver (lines 33–41 and 79–99) -/

/-- Both orientations of an undecided edge. -/
def bothDirs (e : NPair) : List NPair := [(e.1, e.2), (e.2, e.1)]

/-- `_is_still_strongly_connected` (lines 33–41): build a `DiGraph` on
`nodes`, add the oriented arcs, add both directions of every undecided edge,
and call `nx.is_strongly_connected` on it. -/
def is_still_strongly_connected (nodes : List Node) (oriented : List NPair)
    (undecided : List NPair) : Except Unit Bool :=
  nx_is_strongly_connected nodes (oriented ++ undecided.flatMap bothDirs)

/-- The solver loop (lines 92–99): for each undecided edge `(u, v)` in
sequence, append `(u, v)` if the optimistic feasibility test passes, else
append `(v, u)` untested. -/
def solveEdges (nodes : List Node) (committed : List NPair) :
    List NPair → List NPair
  | [] => committed
  | e :: rest =>
    if is_still_strongly_connected nodes (committed ++ [(e.1, e.2)]) rest
        = Except.ok true then
      solveEdges nodes (committed ++ [(e.1, e.2)]) rest
    else
      solveEdges nodes (committed ++ [(e.2, e.1)]) rest

/-- `fixed_arcs` (lines 79–85): the `(u,v)` pairs of the non-flexible arcs,
deduplicated (a Python `set`; its hash order is modelled canonically). -/
def fixedPairs (G : Graph) : List NPair :=
  ((G.arcs.filter fun a => !a.flexible).map fun a => (a.src, a.dst)).dedup

/-- Insertion pass for `dedupPairs`: keep a pair unless an unordered-equal
pair has already been kept. -/
def dedupPairsAux (seen : List NPair) : List NPair → List NPair
  | [] => []
  | e :: rest =>
    if seen.any fun s => samePairB e s then dedupPairsAux seen rest
    else e :: dedupPairsAux (e :: seen) rest

/-- First-occurrence deduplication of unordered pairs: the model of
`edges_to_decide_set`, a Python set of `frozenset`s, with the first-seen arc
orientation as the representative drawn by `tuple(edge)`. -/
def dedupPairs (l : List NPair) : List NPair := dedupPairsAux [] l

/-- `undecided_edges` (lines 79–87): one representative ordered pair per
flexible unordered edge. -/
def flexEdges (G : Graph) : List NPair :=
  dedupPairs ((G.arcs.filter fun a => a.flexible).map fun a => (a.src, a.dst))

/-- The solver's full committed arc list for the filtered graph `G2`. -/
def orientedArcsOf (G2 : Graph) : List NPair :=
  solveEdges G2.nodes (fixedPairs G2) (flexEdges G2)

/-! ## Stage 4: final graph and verification (lines 101–111) -/

/-- `final_graph`: nodes of the filtered graph plus the committed arcs.
`add_edges_from` on bare pairs leaves the attribute dictionaries empty, so
`oneway` and `flexible` both read back as `False`. -/
def finalGraphOf (G2 : Graph) (oriented : List NPair) : Graph :=
  ⟨G2.nodes, oriented.map fun p => ⟨p.1, p.2, false, false⟩⟩

/-- `create_custom_orientation` (lines 43–111): the whole pipeline. The
`Except` layer carries the `NetworkXPointlessConcept` exception that
`nx.is_strongly_connected` raises on a null graph. -/
def create_custom_orientation (G_raw : Graph) : Except Unit Graph :=
  let G := markFlexible G_raw
  let G1 := bridgeStage G
  let G2 := cutStage G1
  let F := finalGraphOf G2 (orientedArcsOf G2)
  match nx_is_strongly_connected F.nodes F.pairs with
  | Except.error e => Except.error e
  | Except.ok true => Except.ok F
  | Except.ok false => Except.ok (get_largest_scc F)

/-- The graph handed to the orientation solver: the working graph after the
flexible-marking, bridge, and cut-node stages. -/
def filteredGraph (G_raw : Graph) : Graph :=
  cutStage (bridgeStage (markFlexible G_raw))

/-! ## Specification-level predicates (used to state the claims) -/

/-- `{u,v}` is a bridge of the collapsed undirected topology: an edge is
present between `u` and `v`, and with every arc between them deleted, `u` no
longer reaches `v` undirectedly (so its removal increases the number of
connected components). -/
def IsBridge (G : Graph) (u v : Node) : Prop :=
  ((u, v) ∈ G.pairs ∨ (v, u) ∈ G.pairs) ∧
    ¬ UReach (G.pairs.filter fun a => !(samePairB a (u, v))) u v

/-- The spec's "one-way cut node": all fixed traffic inbound (or all
outbound) with no bidirectional neighbour. -/
def IsOneWayCutNode (G : Graph) (n : Node) : Prop :=
  ((∃ a ∈ G.arcs, a.dst = n ∧ a.oneway = true) ∧
    (¬ ∃ a ∈ G.arcs, a.src = n ∧ a.oneway = true) ∧
    ¬ ∃ m : Node, (n, m) ∈ G.pairs ∧ (m, n) ∈ G.pairs) ∨
  ((∃ a ∈ G.arcs, a.src = n ∧ a.oneway = true) ∧
    (¬ ∃ a ∈ G.arcs, a.dst = n ∧ a.oneway = true) ∧
    ¬ ∃ m : Node, (n, m) ∈ G.pairs ∧ (m, n) ∈ G.pairs)

/-! ## Concrete example graphs (witnesses and counterexamples) -/

/-- The two arcs a two-way (non-oneway) road contributes to the source graph. -/
def twoWay (u v : Node) : List Arc :=
  [⟨u, v, false, false⟩, ⟨v, u, false, false⟩]

/-- The 0-node graph. -/
def exEmpty : Graph := ⟨[], []⟩

/-- Two nodes joined by one two-way road (the road is a bridge). -/
def exTwo : Graph := ⟨[0, 1], twoWay 0 1⟩

/-- A triangle and a disjoint 4-cycle, all two-way: disconnected but
entirely bridge-free. -/
def exSplit : Graph :=
  ⟨[0, 1, 2, 3, 4, 5, 6],
    twoWay 0 1 ++ twoWay 1 2 ++ twoWay 2 0 ++
    twoWay 3 4 ++ twoWay 4 5 ++ twoWay 5 6 ++ twoWay 6 3⟩

/-- A triangle and a 4-cycle joined by one bridge road `2–3`. -/
def exBridged : Graph :=
  ⟨[0, 1, 2, 3, 4, 5, 6],
    twoWay 0 1 ++ twoWay 1 2 ++ twoWay 2 0 ++
    twoWay 3 4 ++ twoWay 4 5 ++ twoWay 5 6 ++ twoWay 6 3 ++ twoWay 2 3⟩

/-- A two-way 2-cycle and a disjoint two-way 3-cycle: two SCCs, no `oneway`
arcs anywhere, hence no one-way cut nodes. -/
def exTwoSccs : Graph :=
  ⟨[0, 1, 2, 3, 4], twoWay 0 1 ++ twoWay 2 3 ++ twoWay 3 4 ++ twoWay 4 2⟩

/-- A two-way triangle with a pendant one-way arc `0→3`: node 3 is an
"all-in" one-way cut node. -/
def exPendant : Graph :=
  ⟨[0, 1, 2, 3], twoWay 0 1 ++ twoWay 1 2 ++ twoWay 2 0 ++ [⟨0, 3, true, false⟩]⟩

/-- A directed one-way triangle: every arc is fixed, none flexible. -/
def exOneWayTriangle : Graph :=
  ⟨[0, 1, 2], [⟨0, 1, true, false⟩, ⟨1, 2, true, false⟩, ⟨2, 0, true, false⟩]⟩

/-- The two arcs of a two-way road after the flexible-marking stage. -/
def flexPair (u v : Node) : List Arc :=
  [⟨u, v, false, true⟩, ⟨v, u, false, true⟩]

/-- A triangle of already-marked flexible edges (a filtered working graph). -/
def exFlexTriangle : Graph :=
  ⟨[0, 1, 2], flexPair 0 1 ++ flexPair 1 2 ++ flexPair 2 0⟩

/-! ## Basic lemmas about the embedding -/

lemma mem_expand {A : List NPair} {S : Finset Node} {v : Node} :
    v ∈ expand A S ↔ v ∈ S ∨ ∃ x ∈ S, (x, v) ∈ A := by
  simp only [expand, Finset.mem_union, List.mem_toFinset, List.mem_map,
    List.mem_filter, decide_eq_true_eq]
  constructor
  · rintro (h | ⟨a, ⟨ha, hs⟩, rfl⟩)
    · exact Or.inl h
    · exact Or.inr ⟨a.1, hs, ha⟩
  · rintro (h | ⟨x, hx, hA⟩)
    · exact Or.inl h
    · exact Or.inr ⟨(x, v), ⟨hA, hx⟩, rfl⟩

lemma subset_expand (A : List NPair) (S : Finset Node) : S ⊆ expand A S :=
  fun _ h => mem_expand.mpr (Or.inl h)

lemma reachSet_succ (A : List NPair) (u : Node) (n : Nat) :
    reachSet A u (n + 1) = expand A (reachSet A u n) := by
  simp [reachSet, Function.iterate_succ_apply']

lemma self_mem_reachSet (A : List NPair) (u : Node) (n : Nat) :
    u ∈ reachSet A u n := by
  induction n with
  | zero => simp [reachSet]
  | succ n ih => rw [reachSet_succ]; exact subset_expand A _ ih

lemma reachSet_sound {A : List NPair} {u : Node} :
    ∀ {n : Nat} {v : Node}, v ∈ reachSet A u n → Reach A u v := by
  intro n
  induction n with
  | zero =>
    intro v h
    simp only [reachSet, Function.iterate_zero, id_eq, Finset.mem_singleton] at h
    exact h ▸ Relation.ReflTransGen.refl
  | succ n ih =>
    intro v h
    rw [reachSet_succ] at h
    rcases mem_expand.mp h with h | ⟨x, hx, hA⟩
    · exact ih h
    · exact Relation.ReflTransGen.tail (ih hx) hA

lemma reachSet_subset_univ (A : List NPair) (u : Node) (n : Nat) :
    reachSet A u n ⊆ insert u (A.map Prod.snd).toFinset := by
  induction n with
  | zero => simp [reachSet]
  | succ n ih =>
    rw [reachSet_succ]
    intro v hv
    rcases mem_expand.mp hv with h | ⟨x, _, hA⟩
    · exact ih h
    · exact Finset.mem_insert_of_mem (by
        simp only [List.mem_toFinset, List.mem_map]
        exact ⟨(x, v), hA, rfl⟩)

lemma reachSet_card_le (A : List NPair) (u : Node) (n : Nat) :
    (reachSet A u n).card ≤ reachFuel A := by
  calc (reachSet A u n).card
      ≤ (insert u (A.map Prod.snd).toFinset).card :=
        Finset.card_le_card (reachSet_subset_univ A u n)
    _ ≤ (A.map Prod.snd).toFinset.card + 1 := Finset.card_insert_le _ _
    _ = reachFuel A := rfl

lemma reachSet_stable {A : List NPair} {u : Node} {n : Nat}
    (h : reachSet A u (n + 1) = reachSet A u n) :
    ∀ k, reachSet A u (n + k) = reachSet A u n := by
  intro k
  induction k with
  | zero => rfl
  | succ k ih =>
    have : n + (k + 1) = (n + k) + 1 := by omega
    rw [this, reachSet_succ, ih, ← reachSet_succ, h]

lemma reachSet_grows_or_stalls (A : List NPair) (u : Node) :
    ∀ n : Nat, n + 1 ≤ (reachSet A u n).card ∨
      ∃ m < n, reachSet A u (m + 1) = reachSet A u m := by
  intro n
  induction n with
  | zero =>
    left
    have : u ∈ reachSet A u 0 := self_mem_reachSet A u 0
    exact Finset.card_pos.mpr ⟨u, this⟩
  | succ n ih =>
    rcases ih with h | ⟨m, hm, hstall⟩
    · by_cases hst : reachSet A u (n + 1) = reachSet A u n
      · exact Or.inr ⟨n, Nat.lt_succ_self n, hst⟩
      · left
        have hsub : reachSet A u n ⊆ reachSet A u (n + 1) := by
          rw [reachSet_succ]; exact subset_expand A _
        have hss : reachSet A u n ⊂ reachSet A u (n + 1) :=
          HasSubset.Subset.ssubset_of_ne hsub (fun he => hst he.symm)
        have := Finset.card_lt_card hss
        omega
    · exact Or.inr ⟨m, Nat.lt_succ_of_lt hm, hstall⟩

lemma reachSet_fixed (A : List NPair) (u : Node) :
    expand A (reachSet A u (reachFuel A)) = reachSet A u (reachFuel A) := by
  rcases reachSet_grows_or_stalls A u (reachFuel A) with h | ⟨m, hm, hstall⟩
  · have := reachSet_card_le A u (reachFuel A)
    omega
  · have hk : ∀ k, reachSet A u (m + k) = reachSet A u m :=
      reachSet_stable hstall
    have h1 : reachSet A u (reachFuel A) = reachSet A u m := by
      have : m + (reachFuel A - m) = reachFuel A := by omega
      calc reachSet A u (reachFuel A)
          = reachSet A u (m + (reachFuel A - m)) := by rw [this]
        _ = reachSet A u m := hk _
    calc expand A (reachSet A u (reachFuel A))
        = expand A (reachSet A u m) := by rw [h1]
      _ = reachSet A u (m + 1) := (reachSet_succ A u m).symm
      _ = reachSet A u m := hstall
      _ = reachSet A u (reachFuel A) := h1.symm

lemma reachSet_complete {A : List NPair} {u v : Node}
    (h : Reach A u v) : v ∈ reachSet A u (reachFuel A) := by
  induction h with
  | refl => exact self_mem_reachSet A u _
  | tail _ hbc ih =>
    have : _ ∈ expand A (reachSet A u (reachFuel A)) :=
      mem_expand.mpr (Or.inr ⟨_, ih, hbc⟩)
    rwa [reachSet_fixed A u] at this

/-- The executable reachability test agrees with the inductive relation. -/
theorem reachB_iff (A : List NPair) (u v : Node) :
    reachB A u v = true ↔ Reach A u v := by
  simp only [reachB, decide_eq_true_eq]
  exact ⟨reachSet_sound, reachSet_complete⟩

lemma reach_congr {A B : List NPair} (h : ∀ p : NPair, p ∈ A ↔ p ∈ B) :
    ∀ {u v : Node}, Reach A u v ↔ Reach B u v := by
  intro u v
  constructor
  · exact Relation.ReflTransGen.mono (fun x y hxy => (h (x, y)).mp hxy)
  · exact Relation.ReflTransGen.mono (fun x y hxy => (h (x, y)).mpr hxy)

/-- `reachB` only depends on the membership of the arc list. -/
lemma reachB_congr {A B : List NPair} (h : ∀ p : NPair, p ∈ A ↔ p ∈ B)
    (u v : Node) : reachB A u v = reachB B u v := by
  have : reachB A u v = true ↔ reachB B u v = true := by
    rw [reachB_iff, reachB_iff]
    exact reach_congr h
  cases hA : reachB A u v <;> cases hB : reachB B u v <;> simp_all

/-! ## Undirected reachability (for the bridge stage's `nx.Graph(G)` view) -/

/-- Both-direction copies of the arc pairs: the undirected view of the arcs. -/
lemma mem_symmetrize {A : List NPair} {p : NPair} :
    p ∈ symmetrize A ↔ p ∈ A ∨ (p.2, p.1) ∈ A := by
  simp only [symmetrize, List.mem_append, List.mem_map]
  constructor
  · rintro (h | ⟨q, hq, rfl⟩)
    · exact Or.inl h
    · exact Or.inr hq
  · rintro (h | h)
    · exact Or.inl h
    · exact Or.inr ⟨(p.2, p.1), h, rfl⟩

theorem uReachB_iff (A : List NPair) (u v : Node) :
    uReachB A u v = true ↔ UReach A u v := by
  rw [uReachB, reachB_iff]
  constructor
  · exact Relation.ReflTransGen.mono (fun x y hxy => by
      rcases mem_symmetrize.mp hxy with h | h
      · exact Or.inl h
      · exact Or.inr h)
  · exact Relation.ReflTransGen.mono (fun x y hxy =>
      mem_symmetrize.mpr (by rcases hxy with h | h
                             · exact Or.inl h
                             · exact Or.inr h))

lemma uReach_symm {A : List NPair} {u v : Node} (h : UReach A u v) :
    UReach A v u := by
  induction h with
  | refl => exact Relation.ReflTransGen.refl
  | tail _ hbc ih =>
    exact Relation.ReflTransGen.head (by rcases hbc with h | h
                                         · exact Or.inr h
                                         · exact Or.inl h) ih


lemma maxByLen_mem : ∀ {l : List (List Node)}, l ≠ [] → maxByLen l ∈ l := by
  intro l
  induction l with
  | nil => intro h; exact absurd rfl h
  | cons c rest ih =>
    intro _
    show (if (maxByLen rest).length > c.length then maxByLen rest else c) ∈ _
    by_cases h : (maxByLen rest).length > c.length
    · rw [if_pos h]
      have hrest : rest ≠ [] := by
        rintro rfl
        simp [maxByLen] at h
      exact List.mem_cons_of_mem c (ih hrest)
    · rw [if_neg h]; exact List.mem_cons_self c rest

lemma maxByLen_le : ∀ {l : List (List Node)} {c : List Node}, c ∈ l →
    c.length ≤ (maxByLen l).length := by
  intro l
  induction l with
  | nil => intro c h; simp at h
  | cons d rest ih =>
    intro c h
    show c.length ≤ (if (maxByLen rest).length > d.length
                     then maxByLen rest else d).length
    rcases List.mem_cons.mp h with rfl | h
    · by_cases hgt : (maxByLen rest).length > c.length
      · rw [if_pos hgt]; omega
      · rw [if_neg hgt]
    · by_cases hgt : (maxByLen rest).length > d.length
      · rw [if_pos hgt]; exact ih h
      · rw [if_neg hgt]; have := ih h; omega

/-! ## Pair lemmas -/

lemma samePairB_iff {a e : NPair} :
    samePairB a e = true ↔ a = e ∨ a = (e.2, e.1) := by
  simp [samePairB]

lemma samePairB_symm (a e : NPair) : samePairB a e = samePairB e a := by
  have h : samePairB a e = true ↔ samePairB e a = true := by
    rw [samePairB_iff, samePairB_iff]
    rcases a with ⟨a1, a2⟩
    rcases e with ⟨e1, e2⟩
    simp only [Prod.mk.injEq, Prod.fst, Prod.snd]
    constructor <;> rintro (⟨rfl, rfl⟩ | ⟨rfl, rfl⟩) <;> simp
  cases h1 : samePairB a e <;> cases h2 : samePairB e a <;> simp_all

/-- If an ordered pair is an orientation of both `e` and `f`, then `e` and
`f` name the same unordered edge. -/
lemma samePairB_of_common_orientation {p e f : NPair}
    (he : p = (e.1, e.2) ∨ p = (e.2, e.1)) (hf : p = (f.1, f.2) ∨ p = (f.2, f.1)) :
    samePairB e f = true := by
  rw [samePairB_iff]
  rcases e with ⟨e1, e2⟩
  rcases f with ⟨f1, f2⟩
  rcases he with rfl | rfl <;> rcases hf with hf | hf <;>
    simp only [Prod.mk.injEq] at hf ⊢ <;> tauto

/-! ## Solver lemmas -/

lemma solveEdges_mono (nodes : List Node) :
    ∀ (edges committed : List NPair) (a : NPair), a ∈ committed →
      a ∈ solveEdges nodes committed edges := by
  intro edges
  induction edges with
  | nil => intro committed a ha; simpa [solveEdges] using ha
  | cons e rest ih =>
    intro committed a ha
    simp only [solveEdges]
    split
    · exact ih _ a (List.mem_append_left _ ha)
    · exact ih _ a (List.mem_append_left _ ha)

lemma solveEdges_mem (nodes : List Node) :
    ∀ (edges committed : List NPair) (a : NPair),
      a ∈ solveEdges nodes committed edges →
      a ∈ committed ∨ ∃ e ∈ edges, a = (e.1, e.2) ∨ a = (e.2, e.1) := by
  intro edges
  induction edges with
  | nil =>
    intro committed a ha
    left
    simpa [solveEdges] using ha
  | cons e rest ih =>
    intro committed a ha
    simp only [solveEdges] at ha
    have step : ∀ d : NPair, (d = (e.1, e.2) ∨ d = (e.2, e.1)) →
        a ∈ solveEdges nodes (committed ++ [d]) rest →
        a ∈ committed ∨ ∃ f ∈ e :: rest, a = (f.1, f.2) ∨ a = (f.2, f.1) := by
      intro d hd hmem
      rcases ih _ a hmem with h | ⟨f, hf, h⟩
      · rcases List.mem_append.mp h with h | h
        · exact Or.inl h
        · right
          refine ⟨e, List.mem_cons_self e rest, ?_⟩
          rw [List.mem_singleton.mp h]
          exact hd
      · exact Or.inr ⟨f, List.mem_cons_of_mem e hf, h⟩
    split at ha
    · exact step (e.1, e.2) (Or.inl rfl) ha
    · exact step (e.2, e.1) (Or.inr rfl) ha

/-! ## Congruence of the oracle under arc-list membership equivalence -/

lemma mem_nxNodeSet {V : List Node} {A : List NPair} {x : Node} :
    x ∈ nxNodeSet V A ↔
      x ∈ V ∨ (∃ p ∈ A, p.1 = x) ∨ ∃ p ∈ A, p.2 = x := by
  simp only [nxNodeSet, Finset.mem_union, List.mem_toFinset, List.mem_map]
  constructor
  · rintro ((h | ⟨p, hp, rfl⟩) | ⟨p, hp, rfl⟩)
    · exact Or.inl h
    · exact Or.inr (Or.inl ⟨p, hp, rfl⟩)
    · exact Or.inr (Or.inr ⟨p, hp, rfl⟩)
  · rintro (h | ⟨p, hp, rfl⟩ | ⟨p, hp, rfl⟩)
    · exact Or.inl (Or.inl h)
    · exact Or.inl (Or.inr ⟨p, hp, rfl⟩)
    · exact Or.inr ⟨p, hp, rfl⟩

lemma nxNodeSet_congr {V : List Node} {A B : List NPair}
    (h : ∀ p : NPair, p ∈ A ↔ p ∈ B) : nxNodeSet V A = nxNodeSet V B := by
  ext x
  rw [mem_nxNodeSet, mem_nxNodeSet]
  constructor
  · rintro (hx | ⟨p, hp, rfl⟩ | ⟨p, hp, rfl⟩)
    · exact Or.inl hx
    · exact Or.inr (Or.inl ⟨p, (h p).mp hp, rfl⟩)
    · exact Or.inr (Or.inr ⟨p, (h p).mp hp, rfl⟩)
  · rintro (hx | ⟨p, hp, rfl⟩ | ⟨p, hp, rfl⟩)
    · exact Or.inl hx
    · exact Or.inr (Or.inl ⟨p, (h p).mpr hp, rfl⟩)
    · exact Or.inr (Or.inr ⟨p, (h p).mpr hp, rfl⟩)

lemma stronglyConnB_congr {V : List Node} {A B : List NPair}
    (h : ∀ p : NPair, p ∈ A ↔ p ∈ B) :
    stronglyConnB V A = stronglyConnB V B := by
  unfold stronglyConnB
  rw [nxNodeSet_congr h]
  apply decide_eq_decide.mpr
  constructor
  · intro hh v hv w hw
    rw [← reachB_congr h]
    exact hh v hv w hw
  · intro hh v hv w hw
    rw [reachB_congr h]
    exact hh v hv w hw

lemma nx_is_strongly_connected_congr {V : List Node} {A B : List NPair}
    (h : ∀ p : NPair, p ∈ A ↔ p ∈ B) :
    nx_is_strongly_connected V A = nx_is_strongly_connected V B := by
  unfold nx_is_strongly_connected
  rw [nxNodeSet_congr h, stronglyConnB_congr h]

/-! ## The solver's trial arc set -/

lemma mem_flatMap_bothDirs {l : List NPair} {p : NPair} :
    p ∈ l.flatMap bothDirs ↔ ∃ e ∈ l, p = (e.1, e.2) ∨ p = (e.2, e.1) := by
  simp only [List.mem_flatMap, bothDirs, List.mem_cons, List.mem_singleton,
    List.not_mem_nil, or_false]

lemma flatMap_bothDirs_middle {pre post : List NPair} {e p : NPair} :
    p ∈ (pre ++ e :: post).flatMap bothDirs ↔
      p ∈ pre.flatMap bothDirs ∨ (p = (e.1, e.2) ∨ p = (e.2, e.1)) ∨
        p ∈ post.flatMap bothDirs := by
  rw [mem_flatMap_bothDirs, mem_flatMap_bothDirs, mem_flatMap_bothDirs]
  constructor
  · rintro ⟨f, hf, hor⟩
    rcases List.mem_append.mp hf with hf | hf
    · exact Or.inl ⟨f, hf, hor⟩
    · rcases List.mem_cons.mp hf with rfl | hf
      · exact Or.inr (Or.inl hor)
      · exact Or.inr (Or.inr ⟨f, hf, hor⟩)
  · rintro (⟨f, hf, hor⟩ | hor | ⟨f, hf, hor⟩)
    · exact ⟨f, List.mem_append_left _ hf, hor⟩
    · exact ⟨e, List.mem_append_right _ (List.mem_cons_self e post), hor⟩
    · exact ⟨f, List.mem_append_right _ (List.mem_cons_of_mem e hf), hor⟩

/-! ## Stage-level arc containments and attribute facts -/

lemma inducedSubgraph_arcs_subset {G : Graph} {S : List Node} :
    ∀ a ∈ (inducedSubgraph G S).arcs, a ∈ G.arcs :=
  fun _ ha => (List.mem_filter.mp ha).1

lemma bridgeStage_arcs_subset (G : Graph) :
    ∀ a ∈ (bridgeStage G).arcs, a ∈ G.arcs := by
  unfold bridgeStage
  split
  · exact fun _ h => h
  · intro a ha
    exact (List.mem_filter.mp (inducedSubgraph_arcs_subset a ha)).1

lemma get_largest_scc_arcs_subset (G : Graph) :
    ∀ a ∈ (get_largest_scc G).arcs, a ∈ G.arcs := by
  unfold get_largest_scc
  split
  · intro a ha; simp at ha
  · exact inducedSubgraph_arcs_subset

lemma cutStage_arcs_subset (G : Graph) :
    ∀ a ∈ (cutStage G).arcs, a ∈ G.arcs := by
  unfold cutStage
  split
  · exact fun _ h => h
  · intro a ha
    exact (List.mem_filter.mp (get_largest_scc_arcs_subset _ a ha)).1

lemma markFlexible_oneway_not_flexible (G : Graph)
    (hin : ∀ a ∈ G.arcs, a.flexible = false) :
    ∀ a ∈ (markFlexible G).arcs, a.oneway = true → a.flexible = false := by
  intro a ha how
  simp only [markFlexible, List.mem_map] at ha
  obtain ⟨b, hb, rfl⟩ := ha
  by_cases h : b.oneway
  · rw [if_pos h]
    exact hin b hb
  · rw [if_neg h] at how ⊢
    exact absurd how (by simpa using h)

lemma mem_fixedPairs_of {G : Graph} {a : Arc} (ha : a ∈ G.arcs)
    (hf : a.flexible = false) : (a.src, a.dst) ∈ fixedPairs G := by
  unfold fixedPairs
  rw [List.mem_dedup]
  exact List.mem_map.mpr ⟨a, List.mem_filter.mpr ⟨ha, by simp [hf]⟩, rfl⟩

/-! ## SCC and component membership characterisations -/

lemma mem_sccOf {A : List NPair} {V : List Node} {u x : Node} :
    x ∈ sccOf A V u ↔ x ∈ V ∧ Reach A u x ∧ Reach A x u := by
  simp [sccOf, List.mem_filter, Bool.and_eq_true, reachB_iff]

lemma mem_uComponentOf {G : Graph} {u x : Node} :
    x ∈ uComponentOf G u ↔ x ∈ G.nodes ∧ UReach G.pairs u x := by
  simp [uComponentOf, List.mem_filter, uReachB_iff]

lemma largestSccList_le (G : Graph) :
    ∀ u ∈ G.nodes, (sccOf G.pairs G.nodes u).length ≤ (largestSccList G).length :=
  fun u hu => maxByLen_le (List.mem_map.mpr ⟨u, hu, rfl⟩)

lemma largestSccList_exists (G : Graph) (h : G.nodes ≠ []) :
    ∃ u ∈ G.nodes, largestSccList G = sccOf G.pairs G.nodes u := by
  have hmem : maxByLen (G.nodes.map fun u => sccOf G.pairs G.nodes u) ∈
      G.nodes.map fun u => sccOf G.pairs G.nodes u :=
    maxByLen_mem (by simpa using h)
  obtain ⟨u, hu, heq⟩ := List.mem_map.mp hmem
  exact ⟨u, hu, heq.symm⟩

lemma largestUComponent_le (G : Graph) :
    ∀ u ∈ G.nodes, (uComponentOf G u).length ≤ (largestUComponent G).length :=
  fun u hu => maxByLen_le (List.mem_map.mpr ⟨u, hu, rfl⟩)

lemma largestUComponent_exists (G : Graph) (h : G.nodes ≠ []) :
    ∃ u ∈ G.nodes, largestUComponent G = uComponentOf G u := by
  have hmem : maxByLen (G.nodes.map (uComponentOf G)) ∈
      G.nodes.map (uComponentOf G) := maxByLen_mem (by simpa using h)
  obtain ⟨u, hu, heq⟩ := List.mem_map.mp hmem
  exact ⟨u, hu, heq.symm⟩

lemma mem_pairs {G : Graph} {p : NPair} :
    p ∈ G.pairs ↔ ∃ a ∈ G.arcs, (a.src, a.dst) = p := by
  simp [Graph.pairs, List.mem_map]

lemma mem_pairs_inducedSubgraph {G : Graph} {S : List Node} {p : NPair} :
    p ∈ (inducedSubgraph G S).pairs ↔ p ∈ G.pairs ∧ p.1 ∈ S ∧ p.2 ∈ S := by
  simp only [Graph.pairs, inducedSubgraph, List.mem_map, List.mem_filter,
    Bool.and_eq_true, decide_eq_true_eq]
  constructor
  · rintro ⟨a, ⟨ha, h1, h2⟩, rfl⟩
    exact ⟨⟨a, ha, rfl⟩, h1, h2⟩
  · rintro ⟨⟨a, ha, rfl⟩, h1, h2⟩
    exact ⟨a, ⟨ha, h1, h2⟩, rfl⟩

lemma pair_endpoints_mem {G : Graph} (hG : Closed G) :
    ∀ p ∈ G.pairs, p.1 ∈ G.nodes ∧ p.2 ∈ G.nodes := by
  intro p hp
  obtain ⟨a, ha, rfl⟩ := mem_pairs.mp hp
  exact hG a ha

/-! ## Closedness is preserved by every stage -/

lemma closed_markFlexible {G : Graph} (hG : Closed G) :
    Closed (markFlexible G) := by
  intro a ha
  simp only [markFlexible, List.mem_map] at ha
  obtain ⟨b, hb, rfl⟩ := ha
  by_cases h : b.oneway <;> simp only [if_pos, if_neg, h] <;> exact hG b hb

lemma closed_arc_filter {G : Graph} (hG : Closed G) (p : Arc → Bool) :
    Closed ⟨G.nodes, G.arcs.filter p⟩ :=
  fun a ha => hG a (List.mem_filter.mp ha).1

lemma closed_inducedSubgraph {G : Graph} (hG : Closed G) (S : List Node) :
    Closed (inducedSubgraph G S) := by
  intro a ha
  simp only [inducedSubgraph, List.mem_filter, Bool.and_eq_true,
    decide_eq_true_eq] at ha ⊢
  obtain ⟨hmem, h1, h2⟩ := ha
  obtain ⟨hn1, hn2⟩ := hG a hmem
  exact ⟨⟨hn1, h1⟩, hn2, h2⟩

lemma closed_removeNodes {G : Graph} (hG : Closed G) (S : List Node) :
    Closed (removeNodes G S) := by
  intro a ha
  simp only [removeNodes, List.mem_filter, Bool.and_eq_true] at ha ⊢
  obtain ⟨hmem, h1, h2⟩ := ha
  obtain ⟨hn1, hn2⟩ := hG a hmem
  exact ⟨⟨hn1, h1⟩, hn2, h2⟩

lemma closed_get_largest_scc {G : Graph} (hG : Closed G) :
    Closed (get_largest_scc G) := by
  unfold get_largest_scc
  split
  · intro a ha; simp at ha
  · exact closed_inducedSubgraph hG _

lemma closed_bridgeStage {G : Graph} (hG : Closed G) :
    Closed (bridgeStage G) := by
  unfold bridgeStage
  split
  · exact hG
  · exact closed_inducedSubgraph (closed_arc_filter hG _) _

lemma closed_cutStage {G : Graph} (hG : Closed G) : Closed (cutStage G) := by
  unfold cutStage
  split
  · exact hG
  · exact closed_get_largest_scc (closed_removeNodes hG _)

lemma closed_filteredGraph {G : Graph} (hG : Closed G) :
    Closed (filteredGraph G) :=
  closed_cutStage (closed_bridgeStage (closed_markFlexible hG))

lemma dedupPairsAux_subset :
    ∀ (l seen : List NPair) (q : NPair), q ∈ dedupPairsAux seen l → q ∈ l := by
  intro l
  induction l with
  | nil => intro seen q hq; simp [dedupPairsAux] at hq
  | cons e rest ih =>
    intro seen q hq
    simp only [dedupPairsAux] at hq
    split at hq
    · exact List.mem_cons_of_mem e (ih seen q hq)
    · rcases List.mem_cons.mp hq with rfl | hq
      · exact List.mem_cons_self q rest
      · exact List.mem_cons_of_mem e (ih _ q hq)

lemma dedupPairsAux_not_seen :
    ∀ (l seen : List NPair) (q : NPair), q ∈ dedupPairsAux seen l →
      ∀ s ∈ seen, samePairB q s = false := by
  intro l
  induction l with
  | nil => intro seen q hq; simp [dedupPairsAux] at hq
  | cons e rest ih =>
    intro seen q hq s hs
    simp only [dedupPairsAux] at hq
    split at hq
    · exact ih seen q hq s hs
    · rename_i hnone
      rcases List.mem_cons.mp hq with rfl | hq
      · have hfalse : (seen.any fun x => samePairB q x) = false := by
          cases h : seen.any fun x => samePairB q x
          · rfl
          · exact absurd h hnone
        have := List.any_eq_false.mp hfalse s hs
        simpa using this
      · exact ih (e :: seen) q hq s (List.mem_cons_of_mem e hs)

/-- The deduplicated flexible-edge sequence contains each unordered pair at
most once. -/
lemma dedupPairs_pairwise :
    ∀ (l seen : List NPair),
      (dedupPairsAux seen l).Pairwise fun e f => samePairB e f = false := by
  intro l
  induction l with
  | nil => intro seen; simp [dedupPairsAux]
  | cons e rest ih =>
    intro seen
    simp only [dedupPairsAux]
    split
    · exact ih seen
    · refine List.pairwise_cons.mpr ⟨?_, ih (e :: seen)⟩
      intro f hf
      have := dedupPairsAux_not_seen rest (e :: seen) f hf e
        (List.mem_cons_self e seen)
      rw [samePairB_symm]
      exact this

lemma mem_fixedPairs {G : Graph} {p : NPair} (hp : p ∈ fixedPairs G) :
    ∃ a ∈ G.arcs, (a.src, a.dst) = p := by
  rw [fixedPairs, List.mem_dedup] at hp
  obtain ⟨a, ha, heq⟩ := List.mem_map.mp hp
  exact ⟨a, (List.mem_filter.mp ha).1, heq⟩

lemma mem_flexEdges {G : Graph} {p : NPair} (hp : p ∈ flexEdges G) :
    ∃ a ∈ G.arcs, (a.src, a.dst) = p := by
  have := dedupPairsAux_subset _ [] p hp
  obtain ⟨a, ha, heq⟩ := List.mem_map.mp this
  exact ⟨a, (List.mem_filter.mp ha).1, heq⟩

/-- Every arc the solver outputs has both endpoints among the filtered
graph's arc endpoints, so the final graph is closed. -/
lemma closed_finalGraphOf {G2 : Graph} (hG2 : Closed G2) :
    Closed (finalGraphOf G2 (orientedArcsOf G2)) := by
  intro a ha
  simp only [finalGraphOf, List.mem_map] at ha
  obtain ⟨p, hp, rfl⟩ := ha
  show p.1 ∈ G2.nodes ∧ p.2 ∈ G2.nodes
  rcases solveEdges_mem G2.nodes (flexEdges G2) (fixedPairs G2) p hp with
    h | ⟨e, he, hor⟩
  · obtain ⟨b, hb, rfl⟩ := mem_fixedPairs h
    exact hG2 b hb
  · obtain ⟨b, hb, heq⟩ := mem_flexEdges he
    obtain ⟨h1, h2⟩ := hG2 b hb
    have he1 : e.1 = b.src := by rw [← heq]
    have he2 : e.2 = b.dst := by rw [← heq]
    rcases hor with rfl | rfl
    · exact ⟨he1 ▸ h1, he2 ▸ h2⟩
    · exact ⟨he2 ▸ h2, he1 ▸ h1⟩

/-! ## An induced SCC subgraph is strongly connected -/

lemma reach_in_scc_forward {A B : List NPair} {V : List Node} {u : Node}
    (hclosed : ∀ p ∈ A, p.1 ∈ V ∧ p.2 ∈ V)
    (hB : ∀ p : NPair, p ∈ B ↔ p ∈ A ∧ p.1 ∈ sccOf A V u ∧ p.2 ∈ sccOf A V u) :
    ∀ {w : Node}, Reach A u w → Reach A w u → Reach B u w := by
  intro w h
  induction h with
  | refl => intro _; exact Relation.ReflTransGen.refl
  | tail hub hbc ih =>
    intro hcu
    rename_i b c
    have hbu : Reach A b u :=
      Relation.ReflTransGen.trans (Relation.ReflTransGen.single hbc) hcu
    have hBb := ih hbu
    have hb_scc : b ∈ sccOf A V u :=
      mem_sccOf.mpr ⟨(hclosed (b, c) hbc).1, hub, hbu⟩
    have hc_scc : c ∈ sccOf A V u :=
      mem_sccOf.mpr ⟨(hclosed (b, c) hbc).2,
        Relation.ReflTransGen.tail hub hbc, hcu⟩
    exact Relation.ReflTransGen.tail hBb ((hB (b, c)).mpr ⟨hbc, hb_scc, hc_scc⟩)

lemma reach_in_scc_backward {A B : List NPair} {V : List Node} {u : Node}
    (hclosed : ∀ p ∈ A, p.1 ∈ V ∧ p.2 ∈ V)
    (hB : ∀ p : NPair, p ∈ B ↔ p ∈ A ∧ p.1 ∈ sccOf A V u ∧ p.2 ∈ sccOf A V u) :
    ∀ {v : Node}, Reach A v u → Reach A u v → Reach B v u := by
  intro v h
  induction h using Relation.ReflTransGen.head_induction_on with
  | refl => intro _; exact Relation.ReflTransGen.refl
  | head h' hrest ih =>
    intro hua
    rename_i a c
    have huc : Reach A u c := Relation.ReflTransGen.tail hua h'
    have hau : Reach A a u := Relation.ReflTransGen.head h' hrest
    have ha_scc : a ∈ sccOf A V u :=
      mem_sccOf.mpr ⟨(hclosed (a, c) h').1, hua, hau⟩
    have hc_scc : c ∈ sccOf A V u :=
      mem_sccOf.mpr ⟨(hclosed (a, c) h').2, huc, hrest⟩
    exact Relation.ReflTransGen.head
      ((hB (a, c)).mpr ⟨h', ha_scc, hc_scc⟩) (ih huc)

lemma reach_in_scc {A B : List NPair} {V : List Node} {u : Node}
    (hclosed : ∀ p ∈ A, p.1 ∈ V ∧ p.2 ∈ V)
    (hB : ∀ p : NPair, p ∈ B ↔ p ∈ A ∧ p.1 ∈ sccOf A V u ∧ p.2 ∈ sccOf A V u) :
    ∀ v ∈ sccOf A V u, ∀ w ∈ sccOf A V u, Reach B v w := by
  intro v hv w hw
  obtain ⟨-, huv, hvu⟩ := mem_sccOf.mp hv
  obtain ⟨-, huw, hwu⟩ := mem_sccOf.mp hw
  exact Relation.ReflTransGen.trans
    (reach_in_scc_backward hclosed hB hvu huv)
    (reach_in_scc_forward hclosed hB huw hwu)

/-- `get_largest_scc` of a closed graph is strongly connected: any two of
its nodes are mutually reachable over its own arcs. -/
lemma get_largest_scc_strongly_connected {F : Graph} (hF : Closed F) :
    ∀ v ∈ (get_largest_scc F).nodes, ∀ w ∈ (get_largest_scc F).nodes,
      Reach (get_largest_scc F).pairs v w := by
  by_cases hemp : F.nodes = []
  · intro v hv
    rw [get_largest_scc, if_pos hemp] at hv
    simp at hv
  · obtain ⟨u, hu, hS⟩ := largestSccList_exists F hemp
    intro v hv w hw
    rw [get_largest_scc, if_neg hemp] at hv hw ⊢
    have hv' : v ∈ largestSccList F := by
      simpa using (List.mem_filter.mp hv).2
    have hw' : w ∈ largestSccList F := by
      simpa using (List.mem_filter.mp hw).2
    rw [hS] at hv' hw'
    refine reach_in_scc (pair_endpoints_mem hF) ?_ v hv' w hw'
    intro p
    rw [mem_pairs_inducedSubgraph, hS]

/-! ## Characterising the one-way-cut detector -/

lemma hasFixedIn_iff {G : Graph} {n : Node} :
    hasFixedIn G n = true ↔ ∃ a ∈ G.arcs, a.dst = n ∧ a.oneway = true := by
  simp [hasFixedIn, List.any_eq_true, Bool.and_eq_true, beq_iff_eq]

lemma hasFixedOut_iff {G : Graph} {n : Node} :
    hasFixedOut G n = true ↔ ∃ a ∈ G.arcs, a.src = n ∧ a.oneway = true := by
  simp [hasFixedOut, List.any_eq_true, Bool.and_eq_true, beq_iff_eq]

lemma hasTwoWayNeighbor_iff {G : Graph} {n : Node} :
    hasTwoWayNeighbor G n = true ↔
      ∃ m : Node, (n, m) ∈ G.pairs ∧ (m, n) ∈ G.pairs := by
  simp only [hasTwoWayNeighbor, List.any_eq_true, Bool.and_eq_true,
    beq_iff_eq, decide_eq_true_eq]
  constructor
  · rintro ⟨a, ha, rfl, h2⟩
    exact ⟨a.dst, mem_pairs.mpr ⟨a, ha, rfl⟩, h2⟩
  · rintro ⟨m, h1, h2⟩
    obtain ⟨a, ha, heq⟩ := mem_pairs.mp h1
    have hsrc : a.src = n := congrArg Prod.fst heq
    have hdst : a.dst = m := congrArg Prod.snd heq
    exact ⟨a, ha, hsrc, by rw [hdst]; exact h2⟩

lemma isOneWayCut_iff {G : Graph} {n : Node} :
    isOneWayCut G n = true ↔ IsOneWayCutNode G n := by
  simp only [isOneWayCut, Bool.or_eq_true, Bool.and_eq_true, Bool.not_eq_true']
  rw [IsOneWayCutNode]
  have hin := @hasFixedIn_iff G n
  have hout := @hasFixedOut_iff G n
  have htw := @hasTwoWayNeighbor_iff G n
  constructor
  · rintro (⟨⟨h1, h2⟩, h3⟩ | ⟨⟨h1, h2⟩, h3⟩)
    · exact Or.inl ⟨hin.mp h1, fun hc => by simp [hout.mpr hc] at h2,
        fun hc => by simp [htw.mpr hc] at h3⟩
    · exact Or.inr ⟨hout.mp h1, fun hc => by simp [hin.mpr hc] at h2,
        fun hc => by simp [htw.mpr hc] at h3⟩
  · rintro (⟨h1, h2, h3⟩ | ⟨h1, h2, h3⟩)
    · refine Or.inl ⟨⟨hin.mpr h1, ?_⟩, ?_⟩
      · cases hc : hasFixedOut G n
        · rfl
        · exact absurd (hout.mp hc) h2
      · cases hc : hasTwoWayNeighbor G n
        · rfl
        · exact absurd (htw.mp hc) h3
    · refine Or.inr ⟨⟨hout.mpr h1, ?_⟩, ?_⟩
      · cases hc : hasFixedIn G n
        · rfl
        · exact absurd (hin.mp hc) h2
      · cases hc : hasTwoWayNeighbor G n
        · rfl
        · exact absurd (htw.mp hc) h3

/-! ## Characterising the bridge tester -/

lemma isBridgeB_iff_of_mem {G : Graph} {e : NPair} (hmem : e ∈ G.pairs) :
    isBridgeB G.pairs e = true ↔ IsBridge G e.1 e.2 := by
  rw [isBridgeB, IsBridge]
  constructor
  · intro hb
    refine ⟨Or.inl hmem, ?_⟩
    intro hU
    rw [← uReachB_iff] at hU
    rw [hU] at hb
    simp at hb
  · rintro ⟨-, hnU⟩
    cases hu : uReachB (G.pairs.filter fun a => !(samePairB a e)) e.1 e.2
    · simp [hu]
    · exact absurd ((uReachB_iff _ _ _).mp hu) hnU

/-! ## Claim theorems -/

/-- **C2.** For the i-th flexible edge `(u, v)` of the processing sequence:
(1) the trial arc set handed to the feasibility test consists exactly of the
committed arcs so far, the candidate arc `u→v`, and both directions of every
not-yet-decided later edge; (2) the test succeeds exactly when that trial
graph, on all retained nodes, is strongly connected; (3) on success the
solver commits `u→v` (forward preference), otherwise it commits the reverse
`v→u` without testing it. -/
theorem c2_solver_step (nodes : List Node) (committed : List NPair)
    (u v : Node) (rest : List NPair) :
    (∀ p : NPair,
        p ∈ committed ++ [(u, v)] ++ rest.flatMap bothDirs ↔
          p ∈ committed ∨ p = (u, v) ∨
            ∃ e ∈ rest, p = (e.1, e.2) ∨ p = (e.2, e.1)) ∧
    (is_still_strongly_connected nodes (committed ++ [(u, v)]) rest
        = Except.ok true ↔
      ∀ x ∈ nxNodeSet nodes (committed ++ [(u, v)] ++ rest.flatMap bothDirs),
        ∀ y ∈ nxNodeSet nodes (committed ++ [(u, v)] ++ rest.flatMap bothDirs),
          Reach (committed ++ [(u, v)] ++ rest.flatMap bothDirs) x y) ∧
    (solveEdges nodes committed ((u, v) :: rest) =
      if is_still_strongly_connected nodes (committed ++ [(u, v)]) rest
          = Except.ok true
      then solveEdges nodes (committed ++ [(u, v)]) rest
      else solveEdges nodes (committed ++ [(v, u)]) rest) := by
  refine ⟨?_, ?_, ?_⟩
  · intro p
    rw [List.mem_append, List.mem_append, mem_flatMap_bothDirs,
      List.mem_singleton, or_assoc]
  · have hne : nxNodeSet nodes (committed ++ [(u, v)] ++ rest.flatMap bothDirs)
        ≠ ∅ := by
      intro h
      have : u ∈ nxNodeSet nodes
          (committed ++ [(u, v)] ++ rest.flatMap bothDirs) :=
        mem_nxNodeSet.mpr (Or.inr (Or.inl ⟨(u, v),
          List.mem_append_left _ (List.mem_append_right _
            (List.mem_singleton_self _)), rfl⟩))
      rw [h] at this
      exact absurd this (Finset.not_mem_empty u)
    rw [is_still_strongly_connected, nx_is_strongly_connected, if_neg hne]
    have hassoc : (committed ++ [(u, v)]) ++ rest.flatMap bothDirs
        = committed ++ [(u, v)] ++ rest.flatMap bothDirs := rfl
    rw [hassoc]
    constructor
    · intro h x hx y hy
      have hb : stronglyConnB nodes
          (committed ++ [(u, v)] ++ rest.flatMap bothDirs) = true := by
        exact Except.ok.inj h
      have := of_decide_eq_true hb
      exact (reachB_iff _ x y).mp (this x hx y hy)
    · intro h
      have : stronglyConnB nodes
          (committed ++ [(u, v)] ++ rest.flatMap bothDirs) = true :=
        decide_eq_true (fun x hx y hy => (reachB_iff _ x y).mpr (h x hx y hy))
      rw [this]
  · rfl

/-- **C10.** The feasibility test returns the same value when any one pair
in the undecided-edge list is replaced by its reversal: its result does not
depend on the representative orientation drawn from the `frozenset`s. -/
theorem c10_reversal_invariant (nodes : List Node) (oriented : List NPair)
    (pre post : List NPair) (u v : Node) :
    is_still_strongly_connected nodes oriented (pre ++ (u, v) :: post) =
      is_still_strongly_connected nodes oriented (pre ++ (v, u) :: post) := by
  unfold is_still_strongly_connected
  apply nx_is_strongly_connected_congr
  intro p
  rw [List.mem_append, List.mem_append, flatMap_bothDirs_middle,
    flatMap_bothDirs_middle]
  simp only [Prod.fst, Prod.snd]
  tauto

/-- **C6.** With spec-conforming input (the external graph source supplies no
`flexible` attribute), every `oneway=true` arc surviving the bridge and
cut-node filters appears, direction unchanged, in the solver's committed arc
list; moreover everything ever committed is preserved by every later solver
step (arcs are only appended, never removed or flipped). -/
theorem c6_fixed_arcs_preserved (G : Graph)
    (hin : ∀ a ∈ G.arcs, a.flexible = false) :
    (∀ a ∈ (filteredGraph G).arcs, a.oneway = true →
        (a.src, a.dst) ∈ orientedArcsOf (filteredGraph G)) ∧
    (∀ (nodes : List Node) (committed edges : List NPair) (p : NPair),
        p ∈ committed → p ∈ solveEdges nodes committed edges) := by
  constructor
  · intro a ha how
    have h1 : a ∈ (markFlexible G).arcs :=
      bridgeStage_arcs_subset _ a (cutStage_arcs_subset _ a ha)
    have hflex : a.flexible = false :=
      markFlexible_oneway_not_flexible G hin a h1 how
    exact solveEdges_mono _ _ _ _ (mem_fixedPairs_of ha hflex)
  · intro nodes committed edges p hp
    exact solveEdges_mono nodes edges committed p hp

/-- For a processing sequence of pairwise-distinct, non-loop unordered edges
none of whose orientations is already committed, the solver's output
contains exactly one orientation of every edge of the sequence. -/
lemma solveEdges_exactly_one (nodes : List Node) :
    ∀ (edges committed : List NPair),
      edges.Pairwise (fun e f => samePairB e f = false) →
      (∀ e ∈ edges, e.1 ≠ e.2) →
      (∀ e ∈ edges, (e.1, e.2) ∉ committed ∧ (e.2, e.1) ∉ committed) →
      ∀ e ∈ edges,
        ((e.1, e.2) ∈ solveEdges nodes committed edges ∧
          (e.2, e.1) ∉ solveEdges nodes committed edges) ∨
        ((e.2, e.1) ∈ solveEdges nodes committed edges ∧
          (e.1, e.2) ∉ solveEdges nodes committed edges) := by
  intro edges
  induction edges with
  | nil => intro committed _ _ _ e he; simp at he
  | cons g rest ih =>
    intro committed hpw hsl hdisj e he
    obtain ⟨hg_rest, hpw_rest⟩ := List.pairwise_cons.mp hpw
    have key : ∀ d : NPair, (d = (g.1, g.2) ∨ d = (g.2, g.1)) →
        ((e.1, e.2) ∈ solveEdges nodes (committed ++ [d]) rest ∧
          (e.2, e.1) ∉ solveEdges nodes (committed ++ [d]) rest) ∨
        ((e.2, e.1) ∈ solveEdges nodes (committed ++ [d]) rest ∧
          (e.1, e.2) ∉ solveEdges nodes (committed ++ [d]) rest) := by
      intro d hd
      rcases List.mem_cons.mp he with rfl | he'
      · -- the edge being decided right now
        have hmem : d ∈ solveEdges nodes (committed ++ [d]) rest :=
          solveEdges_mono _ _ _ _
            (List.mem_append_right _ (List.mem_singleton_self d))
        have hrev : ∀ q : NPair, (q = (e.1, e.2) ∨ q = (e.2, e.1)) → q ≠ d →
            q ∉ solveEdges nodes (committed ++ [d]) rest := by
          intro q hq hqd hqmem
          rcases solveEdges_mem nodes rest _ q hqmem with h | ⟨f, hf, h⟩
          · rcases List.mem_append.mp h with h | h
            · rcases hq with rfl | rfl
              · exact (hdisj e (List.mem_cons_self e rest)).1 h
              · exact (hdisj e (List.mem_cons_self e rest)).2 h
            · exact hqd (List.mem_singleton.mp h)
          · have : samePairB e f = true :=
              samePairB_of_common_orientation hq h
            rw [hg_rest f hf] at this
            exact Bool.false_ne_true this
        rcases hd with rfl | rfl
        · left
          refine ⟨hmem, hrev (e.2, e.1) (Or.inr rfl) ?_⟩
          intro hcontr
          refine hsl e (List.mem_cons_self e rest) ?_
          have := congrArg (fun p : NPair => p.1) hcontr
          simpa using this.symm
        · right
          refine ⟨hmem, hrev (e.1, e.2) (Or.inl rfl) ?_⟩
          intro hcontr
          refine hsl e (List.mem_cons_self e rest) ?_
          have := congrArg (fun p : NPair => p.1) hcontr
          simpa using this
      · -- an edge decided later: use the induction hypothesis
        refine ih (committed ++ [d]) hpw_rest
          (fun f hf => hsl f (List.mem_cons_of_mem g hf)) ?_ e he'
        intro f hf
        have hnotd : ∀ q : NPair, (q = (f.1, f.2) ∨ q = (f.2, f.1)) →
            q ∉ committed ++ [d] := by
          intro q hq hqmem
          rcases List.mem_append.mp hqmem with h | h
          · rcases hq with rfl | rfl
            · exact (hdisj f (List.mem_cons_of_mem g hf)).1 h
            · exact (hdisj f (List.mem_cons_of_mem g hf)).2 h
          · have hqd : q = d := List.mem_singleton.mp h
            have : samePairB g f = true :=
              samePairB_of_common_orientation (hqd ▸ hd) hq
            rw [hg_rest f hf] at this
            exact Bool.false_ne_true this
        exact ⟨hnotd (f.1, f.2) (Or.inl rfl), hnotd (f.2, f.1) (Or.inr rfl)⟩
    simp only [solveEdges]
    split
    · exact key (g.1, g.2) (Or.inl rfl)
    · exact key (g.2, g.1) (Or.inr rfl)

/-- **C1.** If the pipeline returns a graph, then either the committed-arc
graph passed direct verification and is returned as-is, or the result is the
largest strongly connected component of that committed-arc graph; in both
cases every node of the result reaches every other node of the result over
the result's own arcs (strong connectivity, vacuous only when empty). -/
theorem c1_result_strongly_connected (G_raw : Graph) (hG : Closed G_raw) :
    ∀ R : Graph, create_custom_orientation G_raw = Except.ok R →
      ((nx_is_strongly_connected
          (finalGraphOf (filteredGraph G_raw) (orientedArcsOf (filteredGraph G_raw))).nodes
          (finalGraphOf (filteredGraph G_raw) (orientedArcsOf (filteredGraph G_raw))).pairs
            = Except.ok true ∧
        R = finalGraphOf (filteredGraph G_raw) (orientedArcsOf (filteredGraph G_raw))) ∨
       (nx_is_strongly_connected
          (finalGraphOf (filteredGraph G_raw) (orientedArcsOf (filteredGraph G_raw))).nodes
          (finalGraphOf (filteredGraph G_raw) (orientedArcsOf (filteredGraph G_raw))).pairs
            = Except.ok false ∧
        R = get_largest_scc
          (finalGraphOf (filteredGraph G_raw) (orientedArcsOf (filteredGraph G_raw))))) ∧
      ∀ v ∈ R.nodes, ∀ w ∈ R.nodes, Reach R.pairs v w := by
  intro R hR
  have hF : Closed (finalGraphOf (filteredGraph G_raw)
      (orientedArcsOf (filteredGraph G_raw))) :=
    closed_finalGraphOf (closed_filteredGraph hG)
  set F := finalGraphOf (filteredGraph G_raw) (orientedArcsOf (filteredGraph G_raw))
    with hFdef
  have hR' : (match nx_is_strongly_connected F.nodes F.pairs with
      | Except.error e => Except.error e
      | Except.ok true => Except.ok F
      | Except.ok false => Except.ok (get_largest_scc F)) = Except.ok R := hR
  cases hnx : nx_is_strongly_connected F.nodes F.pairs with
  | error e => rw [hnx] at hR'; exact absurd hR' (by simp)
  | ok b =>
    rw [hnx] at hR'
    cases b with
    | true =>
      have hRF : R = F := (Except.ok.inj hR').symm
      refine ⟨Or.inl ⟨rfl, hRF⟩, ?_⟩
      have hb : stronglyConnB F.nodes F.pairs = true := by
        unfold nx_is_strongly_connected at hnx
        split at hnx
        · exact absurd hnx (by simp)
        · exact Except.ok.inj hnx
      have hall := of_decide_eq_true hb
      intro v hv w hw
      rw [hRF] at hv hw ⊢
      have hv' : v ∈ nxNodeSet F.nodes F.pairs := mem_nxNodeSet.mpr (Or.inl hv)
      have hw' : w ∈ nxNodeSet F.nodes F.pairs := mem_nxNodeSet.mpr (Or.inl hw)
      exact (reachB_iff _ v w).mp (hall v hv' w hw')
    | false =>
      have hRS : R = get_largest_scc F := (Except.ok.inj hR').symm
      refine ⟨Or.inr ⟨rfl, hRS⟩, ?_⟩
      intro v hv w hw
      rw [hRS] at hv hw ⊢
      exact get_largest_scc_strongly_connected hF v hv w hw

/-- Witness for C1 at a concrete closed input: the pipeline on `exTwo`
returns the one-node graph, which is strongly connected. -/
theorem c1_witness :
    Closed exTwo ∧ create_custom_orientation exTwo = Except.ok ⟨[0], []⟩ ∧
    ∀ v ∈ (Graph.mk [0] []).nodes, ∀ w ∈ (Graph.mk [0] []).nodes,
      Reach (Graph.mk [0] []).pairs v w :=
  ⟨by decide, by decide,
    (c1_result_strongly_connected exTwo (by decide) ⟨[0], []⟩ (by decide)).2⟩

/-- **C3.** On the 0-node graph every stage up to the solver does return an
empty graph, but the pipeline then raises `NetworkXPointlessConcept`
(modelled as `Except.error ()`) at the final `nx.is_strongly_connected`
verification, contradicting the claim that no exception is raised. -/
theorem c3_empty_graph_raises :
    markFlexible exEmpty = exEmpty ∧ bridgeStage exEmpty = exEmpty ∧
    cutStage exEmpty = exEmpty ∧ flexEdges exEmpty = [] ∧
    fixedPairs exEmpty = [] ∧
    create_custom_orientation exEmpty = Except.error () := by decide

/-- **C4 (counterexample).** On a bridge-free but disconnected input (a
triangle plus a disjoint 4-cycle) the bridge stage returns the graph
unchanged: node `0` survives although it is not in the largest connected
component, refuting "for every input its output retains only the largest
connected component". -/
theorem c4_counterexample :
    bridgeStage exSplit = exSplit ∧
    exSplit.nodes.length = 7 ∧
    (largestUComponent exSplit).length = 4 ∧
    (0 : Node) ∈ (bridgeStage exSplit).nodes ∧
    (0 : Node) ∉ largestUComponent exSplit := by decide

/-- **C4 (amended).** The bridge list is exactly the arcs naming a bridge of
the undirected topology; the removal pass keeps exactly the arcs whose
unordered pair is not a bridge (so both directed arcs of every bridge go);
when no bridge exists the stage returns the graph unchanged; when at least
one bridge exists the output is the induced subgraph on the largest
(first-seen tie-break) connected component of the post-removal graph. -/
theorem c4_bridge_stage (G : Graph) :
    (∀ e : NPair, e ∈ bridgesOf G ↔ e ∈ G.pairs ∧ IsBridge G e.1 e.2) ∧
    (∀ a : Arc, a ∈ (removeBridgeArcs G).arcs ↔
      a ∈ G.arcs ∧ ¬ IsBridge G a.src a.dst) ∧
    (bridgesOf G = [] → bridgeStage G = G) ∧
    (bridgesOf G ≠ [] →
      bridgeStage G = inducedSubgraph (removeBridgeArcs G)
        (largestUComponent (removeBridgeArcs G)) ∧
      (∀ u ∈ (removeBridgeArcs G).nodes,
        (uComponentOf (removeBridgeArcs G) u).length ≤
          (largestUComponent (removeBridgeArcs G)).length) ∧
      ((removeBridgeArcs G).nodes ≠ [] → ∃ u ∈ (removeBridgeArcs G).nodes,
        largestUComponent (removeBridgeArcs G) =
          uComponentOf (removeBridgeArcs G) u)) := by
  refine ⟨?_, ?_, ?_, ?_⟩
  · intro e
    rw [bridgesOf, List.mem_filter]
    constructor
    · rintro ⟨hmem, hb⟩
      exact ⟨hmem, (isBridgeB_iff_of_mem hmem).mp hb⟩
    · rintro ⟨hmem, hb⟩
      exact ⟨hmem, (isBridgeB_iff_of_mem hmem).mpr hb⟩
  · intro a
    rw [removeBridgeArcs]
    show a ∈ G.arcs.filter _ ↔ _
    rw [List.mem_filter]
    constructor
    · rintro ⟨ha, hcond⟩
      refine ⟨ha, fun hb => ?_⟩
      have hmem : (a.src, a.dst) ∈ G.pairs := mem_pairs.mpr ⟨a, ha, rfl⟩
      have : isBridgeB G.pairs (a.src, a.dst) = true :=
        (isBridgeB_iff_of_mem hmem).mpr hb
      rw [this] at hcond
      simp at hcond
    · rintro ⟨ha, hnb⟩
      refine ⟨ha, ?_⟩
      have hmem : (a.src, a.dst) ∈ G.pairs := mem_pairs.mpr ⟨a, ha, rfl⟩
      cases hb : isBridgeB G.pairs (a.src, a.dst)
      · rfl
      · exact absurd ((isBridgeB_iff_of_mem hmem).mp hb) hnb
  · intro h
    rw [bridgeStage, if_pos h]
  · intro h
    rw [bridgeStage, if_neg h]
    exact ⟨rfl, largestUComponent_le _, largestUComponent_exists _⟩

/-- Witness for the amended C4 at a concrete input containing a bridge. -/
theorem c4_witness :
    bridgesOf exBridged ≠ [] ∧
    bridgeStage exBridged = inducedSubgraph (removeBridgeArcs exBridged)
      (largestUComponent (removeBridgeArcs exBridged)) :=
  ⟨by decide, ((c4_bridge_stage exBridged).2.2.2 (by decide)).1⟩

/-- **C5 (counterexample).** On an input with no one-way cut node but two
separate SCCs (a two-way 2-cycle plus a disjoint two-way 3-cycle), the cut
stage returns the graph unchanged: node `0` survives although it is not in
the largest strongly connected component, refuting "(for every input) its
output is the induced subgraph on the largest strongly connected component
of the remainder". -/
theorem c5_counterexample :
    cutStage exTwoSccs = exTwoSccs ∧
    exTwoSccs.nodes.length = 5 ∧
    (largestSccList exTwoSccs).length = 3 ∧
    (0 : Node) ∈ (cutStage exTwoSccs).nodes ∧
    (0 : Node) ∉ largestSccList exTwoSccs := by decide

/-- **C5 (amended).** The detector flags exactly the nodes matching the
all-in / all-out condition; when none is flagged the stage returns the graph
unchanged; when at least one is flagged the output is `get_largest_scc` of
the remainder, whose chosen node set is a strongly-connected-component
(mutual-reachability) class of maximal size. -/
theorem c5_cut_stage (G : Graph) :
    (∀ n : Node, n ∈ detection_oneway_cut G ↔
      n ∈ G.nodes ∧ IsOneWayCutNode G n) ∧
    (detection_oneway_cut G = [] → cutStage G = G) ∧
    (detection_oneway_cut G ≠ [] →
      cutStage G = get_largest_scc (removeNodes G (detection_oneway_cut G)) ∧
      (∀ x u : Node,
        x ∈ sccOf (removeNodes G (detection_oneway_cut G)).pairs
              (removeNodes G (detection_oneway_cut G)).nodes u ↔
          x ∈ (removeNodes G (detection_oneway_cut G)).nodes ∧
          Reach (removeNodes G (detection_oneway_cut G)).pairs u x ∧
          Reach (removeNodes G (detection_oneway_cut G)).pairs x u) ∧
      (∀ u ∈ (removeNodes G (detection_oneway_cut G)).nodes,
        (sccOf (removeNodes G (detection_oneway_cut G)).pairs
            (removeNodes G (detection_oneway_cut G)).nodes u).length ≤
          (largestSccList (removeNodes G (detection_oneway_cut G))).length) ∧
      ((removeNodes G (detection_oneway_cut G)).nodes ≠ [] →
        ∃ u ∈ (removeNodes G (detection_oneway_cut G)).nodes,
          largestSccList (removeNodes G (detection_oneway_cut G)) =
            sccOf (removeNodes G (detection_oneway_cut G)).pairs
              (removeNodes G (detection_oneway_cut G)).nodes u)) := by
  refine ⟨?_, ?_, ?_⟩
  · intro n
    rw [detection_oneway_cut, List.mem_filter, isOneWayCut_iff]
  · intro h
    rw [cutStage, if_pos h]
  · intro h
    rw [cutStage, if_neg h]
    exact ⟨rfl, fun x u => mem_sccOf, largestSccList_le _, largestSccList_exists _⟩

/-- Witness for the amended C5 at a concrete input containing a one-way cut
node (`3`, all-in via the pendant fixed arc `0→3`). -/
theorem c5_witness :
    detection_oneway_cut exPendant = [3] ∧
    cutStage exPendant =
      get_largest_scc (removeNodes exPendant (detection_oneway_cut exPendant)) :=
  ⟨by decide, ((c5_cut_stage exPendant).2.2 (by decide)).1⟩

/-- **C8.** The embedded pipeline is a pure function of the input graph
value: identical input (same node and arc ordering) yields the identical
flexible-edge processing sequence, identical per-edge commitments, and an
identical final result. (CPython set/frozenset iteration over the integer
node ids is itself a deterministic function of the insertion history, which
the embedding fixes canonically, so two runs of the Python pipeline on the
same input traverse the same sequence.) -/
theorem c8_determinism (G1 G2 : Graph) (hn : G1.nodes = G2.nodes)
    (ha : G1.arcs = G2.arcs) :
    flexEdges (filteredGraph G1) = flexEdges (filteredGraph G2) ∧
    orientedArcsOf (filteredGraph G1) = orientedArcsOf (filteredGraph G2) ∧
    create_custom_orientation G1 = create_custom_orientation G2 := by
  have h12 : G1 = G2 := by
    cases G1
    cases G2
    exact congrArg₂ Graph.mk hn ha
  subst h12
  exact ⟨rfl, rfl, rfl⟩

/-- Witness for C8 at a concrete input. -/
theorem c8_witness :
    flexEdges (filteredGraph exTwo) = flexEdges (filteredGraph exTwo) ∧
    orientedArcsOf (filteredGraph exTwo) = orientedArcsOf (filteredGraph exTwo) ∧
    create_custom_orientation exTwo = create_custom_orientation exTwo :=
  c8_determinism exTwo exTwo rfl rfl

/-- Witness for C6 at a concrete input: the all-fixed triangle survives both
filters and its fixed arc `0→1` is in the committed list. -/
theorem c6_witness :
    (∀ a ∈ exOneWayTriangle.arcs, a.flexible = false) ∧
    ((0 : Node), (1 : Node)) ∈ orientedArcsOf (filteredGraph exOneWayTriangle) := by
  refine ⟨by decide, ?_⟩
  have h := (c6_fixed_arcs_preserved exOneWayTriangle (by decide)).1
  have hmem : (⟨0, 1, true, false⟩ : Arc) ∈ (filteredGraph exOneWayTriangle).arcs := by
    decide
  exact h ⟨0, 1, true, false⟩ hmem rfl

/-- **C7.** For every flexible edge of the processing sequence of a filtered
graph whose flexible edges are loop-free and disjoint from the fixed arcs
(the spec's "at most one logical relationship per unordered pair"; self-loops
are a documented non-goal), the solver's committed arc list contains exactly
one of the two orientations — never both and never neither. -/
theorem c7_exactly_one_orientation (G2 : Graph)
    (hsl : ∀ e ∈ flexEdges G2, e.1 ≠ e.2)
    (hdisj : ∀ e ∈ flexEdges G2,
      (e.1, e.2) ∉ fixedPairs G2 ∧ (e.2, e.1) ∉ fixedPairs G2) :
    ∀ e ∈ flexEdges G2,
      ((e.1, e.2) ∈ orientedArcsOf G2 ∧ (e.2, e.1) ∉ orientedArcsOf G2) ∨
      ((e.2, e.1) ∈ orientedArcsOf G2 ∧ (e.1, e.2) ∉ orientedArcsOf G2) :=
  solveEdges_exactly_one G2.nodes (flexEdges G2) (fixedPairs G2)
    (dedupPairs_pairwise _ []) hsl hdisj

/-- Witness for C7 at a concrete input: a marked flexible triangle, edge
`(0,1)`; exactly one of `0→1` / `1→0` is committed. -/
theorem c7_witness :
    (∀ e ∈ flexEdges exFlexTriangle, e.1 ≠ e.2) ∧
    ((((0 : Node), (1 : Node)) ∈ orientedArcsOf exFlexTriangle ∧
      ((1 : Node), (0 : Node)) ∉ orientedArcsOf exFlexTriangle) ∨
     (((1 : Node), (0 : Node)) ∈ orientedArcsOf exFlexTriangle ∧
      ((0 : Node), (1 : Node)) ∉ orientedArcsOf exFlexTriangle)) :=
  ⟨by decide, c7_exactly_one_orientation exFlexTriangle (by decide) (by decide)
    (0, 1) (by decide)⟩

end StrongOrientation
